import Mathlib

/-
Shallow embedding of the packing core of src/3d-box-visualiser.py.

All Python integers are modelled as Lean `Int` (Python ints are unbounded,
no overflow).  The GUI weight limit is parsed with `float(...)` and compared
against an integer sum; since comparison of a Python int against a float is
exact, the limit is modelled as a rational number `Rat`.

Python `set` values are modelled as duplicate-free lists built by
insertion-order `setAdd`; everywhere the program consumes a set it either
sorts it first (`sorted(list(set(...)))`) or only its membership matters,
so the insertion-order determinisation is faithful.

Python's stable `sorted` is modelled with `List.insertionSort` (also stable);
the claims proved below do not depend on the tie-breaking order.
-/

namespace BoxPacker

/-- The `Box` namedtuple: `Box = namedtuple('Box', ['name', 'l', 'w', 'h', 'weight', 'volume', 'color_hex'])`. -/
structure Box where
  name : String
  l : Int
  w : Int
  h : Int
  weight : Int
  volume : Int
  color_hex : String
  deriving DecidableEq, Repr

/-- The `Container` namedtuple: `Container = namedtuple('Container', ['l', 'w', 'h', 'volume'])`. -/
structure Container where
  l : Int
  w : Int
  h : Int
  volume : Int
  deriving DecidableEq, Repr

/-- The `PlacedBox` namedtuple: `PlacedBox = namedtuple('PlacedBox', ['box', 'x', 'y', 'z', 'l', 'w', 'h'])`;
`l, w, h` are the oriented dimensions actually used for the placement. -/
structure PlacedBox where
  box : Box
  x : Int
  y : Int
  z : Int
  l : Int
  w : Int
  h : Int
  deriving DecidableEq, Repr

/-- `check_overlap(placed_boxes, x, y, z, l, w, h)`: returns `True` iff the candidate
box at `(x,y,z)` with oriented dimensions `(l,w,h)` overlaps some already placed box.
The Python loop returns `True` at the first overlapping box, else `False`, which is
exactly `List.any`. -/
def check_overlap (placed_boxes : List PlacedBox) (x y z l w h : Int) : Bool :=
  placed_boxes.any fun p =>
    let no_overlap_x : Bool := x + l ≤ p.x || p.x + p.l ≤ x
    let no_overlap_y : Bool := y + w ≤ p.y || p.y + p.w ≤ y
    let no_overlap_z : Bool := z + h ≤ p.z || p.z + p.h ≤ z
    !(no_overlap_x || no_overlap_y || no_overlap_z)

/-- The anchor-point candidates of `pack_recursive_helper`: the container origin
`(0,0,0)` plus, for every placed box, the three far-face corners. -/
def anchorPoints (placed_boxes : List PlacedBox) : List (Int × Int × Int) :=
  (0, 0, 0) :: placed_boxes.flatMap fun p =>
    [(p.x + p.l, p.y, p.z), (p.x, p.y + p.w, p.z), (p.x, p.y, p.z + p.h)]

/-- Lexicographic order on coordinate triples, as Python's `sorted` orders tuples. -/
def tripleLe (a b : Int × Int × Int) : Prop :=
  a.1 < b.1 ∨ (a.1 = b.1 ∧ (a.2.1 < b.2.1 ∨ (a.2.1 = b.2.1 ∧ a.2.2 ≤ b.2.2)))

instance : DecidableRel tripleLe := fun a b => by unfold tripleLe; infer_instance

/-- `unique_anchors = sorted(list(set(anchor_points)))`. -/
def unique_anchors (placed_boxes : List PlacedBox) : List (Int × Int × Int) :=
  List.insertionSort tripleLe (anchorPoints placed_boxes).dedup

/-- `rotations = set(itertools.permutations(dims))`: the distinct permutations of
`(l, w, h)`, listed in `itertools.permutations` order and de-duplicated. -/
def rotations (l w h : Int) : List (Int × Int × Int) :=
  ([(l, w, h), (l, h, w), (w, l, h), (w, h, l), (h, l, w), (h, w, l)]).dedup

/-- The candidate (anchor, orientation) pairs tried for one box, in loop order:
anchors outermost, rotations innermost. -/
def candidates (b : Box) (placed_boxes : List PlacedBox) : List ((Int × Int × Int) × (Int × Int × Int)) :=
  (unique_anchors placed_boxes).flatMap fun a => (rotations b.l b.w b.h).map fun d => (a, d)

/-- The body of the two nested `for` loops of `pack_recursive_helper`, walking the
candidate (anchor, rotation) list for the current box `b`.  `recur` is the recursive
call on the remaining boxes.  A candidate is skipped if it violates the container
bounds or overlaps a placed box; otherwise the box is tentatively placed and `recur`
runs; a `none` from `recur` backtracks to the next candidate. -/
def packLoop (recur : List PlacedBox → Option (List PlacedBox)) (b : Box)
    (container : Container) (placed_boxes : List PlacedBox) :
    List ((Int × Int × Int) × (Int × Int × Int)) → Option (List PlacedBox)
  | [] => none
  | ((ax, ay, az), (l, w, h)) :: rest =>
    if container.l < ax + l ∨ container.w < ay + w ∨ container.h < az + h then
      packLoop recur b container placed_boxes rest
    else if check_overlap placed_boxes ax ay az l w h then
      packLoop recur b container placed_boxes rest
    else
      match recur (placed_boxes ++ [PlacedBox.mk b ax ay az l w h]) with
      | some result => some result
      | none => packLoop recur b container placed_boxes rest

/-- `pack_recursive_helper(boxes_left, container, placed_boxes)`: returns the placed
list when no boxes are left, otherwise tries every anchor and rotation for the first
box and recurses on the rest. -/
def pack_recursive_helper : List Box → Container → List PlacedBox → Option (List PlacedBox)
  | [], _, placed_boxes => some placed_boxes
  | b :: remaining, container, placed_boxes =>
    packLoop (fun np => pack_recursive_helper remaining container np) b container
      placed_boxes (candidates b placed_boxes)

/-- One orientation `(l, w, h)` fits within the container bounds independently. -/
def fitsBounds (container : Container) (d : Int × Int × Int) : Prop :=
  d.1 ≤ container.l ∧ d.2.1 ≤ container.w ∧ d.2.2 ≤ container.h

instance : ∀ c d, Decidable (fitsBounds c d) := fun c d => by unfold fitsBounds; infer_instance

/-- `check_fit(boxes_to_pack, container)`: sorts the boxes by volume descending
(stable), rejects immediately if some box fits in no rotation, otherwise runs the
recursive packing from an empty placed list. -/
def check_fit (boxes_to_pack : List Box) (container : Container) : Option (List PlacedBox) :=
  let sorted_boxes := List.insertionSort (fun a b : Box => b.volume ≤ a.volume) boxes_to_pack
  if sorted_boxes.all fun box => (rotations box.l box.w box.h).any fun d => fitsBounds container d then
    pack_recursive_helper sorted_boxes container []
  else
    none

/-- Python `range(start, stop, step)` for a positive step: the values
`start, start + step, ...` while strictly below `stop`.  The program only calls
`range` after checking `increment > 0`, so the non-positive-step case (empty here)
is unreachable at the call site. -/
def pyRange (start stop step : Int) : List Int :=
  if _h : 0 < step ∧ start < stop then start :: pyRange (start + step) stop step
  else []
  termination_by (stop - start).toNat
  decreasing_by omega

/-- Adding an element to a Python `set`, modelled as an insertion-order
duplicate-free list: a no-op when the element is already present. -/
def setAdd {α : Type} [DecidableEq α] (s : List α) (x : α) : List α :=
  if x ∈ s then s else s ++ [x]

/-- `tuple(sorted([l, w, h]))`: the ascending reordering of the three values,
written as an explicit decision tree. -/
def sorted3 (l w h : Int) : Int × Int × Int :=
  if l ≤ w then
    if w ≤ h then (l, w, h)
    else if l ≤ h then (l, h, w)
    else (h, l, w)
  else
    if l ≤ h then (w, l, h)
    else if w ≤ h then (w, h, l)
    else (h, w, l)

/-- The innermost `for h in valid_steps` loop of `generate_containers`, including
the early `break` once `l + w + h > total_sum`. -/
def hLoop (l w total_sum : Int) (acc : List (Int × Int × Int)) :
    List Int → List (Int × Int × Int)
  | [] => acc
  | h :: hs =>
    if l + w + h ≤ total_sum then hLoop l w total_sum (setAdd acc (sorted3 l w h)) hs
    else acc

/-- `generate_containers(self, total_sum, max_dim, min_dim, increment)` (the unused
`self` parameter is dropped; the program passes `None` for it): returns `[]` when
`increment ≤ 0`, otherwise collects the canonically sorted admissible triples into a
set and maps them to `Container` values with `volume = l*w*h`. -/
def generate_containers (total_sum max_dim min_dim increment : Int) : List Container :=
  if increment ≤ 0 then []
  else
    let valid_steps := pyRange min_dim (max_dim + 1) increment
    let valid_containers :=
      valid_steps.foldl (fun acc l =>
        valid_steps.foldl (fun acc w => hLoop l w total_sum acc valid_steps) acc) []
    valid_containers.map fun d => Container.mk d.1 d.2.1 d.2.2 (d.1 * d.2.1 * d.2.2)

/-- Modelled from the spec (for the refinement claim about the `break` optimisation):
the naive triple loop that tests every `(l, w, h)` combination with no early exit. -/
def generate_containers_naive (total_sum max_dim min_dim increment : Int) : List Container :=
  if increment ≤ 0 then []
  else
    let valid_steps := pyRange min_dim (max_dim + 1) increment
    let valid_containers :=
      valid_steps.foldl (fun acc l =>
        valid_steps.foldl (fun acc w =>
          valid_steps.foldl (fun acc h =>
            if l + w + h ≤ total_sum then setAdd acc (sorted3 l w h) else acc) acc) acc) []
    valid_containers.map fun d => Container.mk d.1 d.2.1 d.2.2 (d.1 * d.2.1 * d.2.2)

/-- A reported fit: the spec's `Solution` bundle of the selected item subset, the
chosen container, and the full placed list (the program stores the container and the
`check_fit` result in `self.successful_fits`; the subset is the `box_combination`
the entry was built from). -/
structure Solution where
  combination : List Box
  container : Container
  boxes : List PlacedBox
  deriving DecidableEq, Repr

/-- `itertools.combinations(l, k)`: all `k`-element subsequences of `l`, in
lexicographic order by position. -/
def combinations {α : Type} : Nat → List α → List (List α)
  | 0, _ => [[]]
  | _ + 1, [] => []
  | k + 1, x :: xs => ((combinations k xs).map fun c => x :: c) ++ combinations (k + 1) xs

/-- The inner `for container in self.containers` loop for one subset: skip containers
whose volume is below the subset's total volume, call `check_fit` on the rest, and
stop at the first container that yields a placement. -/
def tryContainers (combo : List Box) (total_volume : Int) :
    List Container → Option (Container × List PlacedBox)
  | [] => none
  | c :: cs =>
    if c.volume < total_volume then tryContainers combo total_volume cs
    else
      match check_fit combo c with
      | some placed => some (c, placed)
      | none => tryContainers combo total_volume cs

/-- The body of the subset loop of `run_packing`: reject the subset when its total
weight exceeds `max_weight` (the weight sum is an integer, the limit a float compared
exactly, modelled as `Rat`), otherwise first-fit over the containers; a successful
subset contributes exactly one `Solution`, a failing one contributes none. -/
def processCombo (max_weight : Rat) (containers : List Container) (combo : List Box) :
    List Solution :=
  let total_weight := (combo.map Box.weight).sum
  if max_weight < (total_weight : Rat) then []
  else
    let total_volume := (combo.map Box.volume).sum
    match tryContainers combo total_volume containers with
    | some (c, placed) => [Solution.mk combo c placed]
    | none => []

/-- The search core of `PackerApp.run_packing` after rule parsing: generate the
containers, abort with no solutions when none are generated or when fewer than two
valid boxes are available, otherwise enumerate `k`-subsets for `k = 2 .. len(boxes)`
in `itertools.combinations` order and collect the solutions in discovery order.
`(List.range (n - 1)).map (2 + ·)` is Python's `range(2, n + 1)`. -/
def run_packing (total_sum max_dim min_dim increment : Int) (max_weight : Rat)
    (input_boxes : List Box) : List Solution :=
  let containers := generate_containers total_sum max_dim min_dim increment
  if containers = [] then []
  else if input_boxes.length < 2 then []
  else
    ((List.range (input_boxes.length - 1)).map fun i => 2 + i).flatMap fun k =>
      (combinations k input_boxes).flatMap fun combo =>
        processCombo max_weight containers combo

/-- Two placed boxes overlap with positive volume: their extents intersect strictly
on all three axes simultaneously.  Boundary equality on some axis (touching faces)
does not satisfy this predicate. -/
def strictOverlap (p q : PlacedBox) : Prop :=
  (q.x < p.x + p.l ∧ p.x < q.x + q.l) ∧
  (q.y < p.y + p.w ∧ p.y < q.y + q.w) ∧
  (q.z < p.z + p.h ∧ p.z < q.z + q.h)

instance : ∀ p q, Decidable (strictOverlap p q) := fun p q => by
  unfold strictOverlap; infer_instance

theorem strictOverlap_symm {p q : PlacedBox} (h : strictOverlap p q) : strictOverlap q p := by
  unfold strictOverlap at h ⊢; omega

theorem check_overlap_eq_false {placed_boxes : List PlacedBox} {x y z l w h : Int} :
    check_overlap placed_boxes x y z l w h = false ↔
      ∀ p ∈ placed_boxes,
        x + l ≤ p.x ∨ p.x + p.l ≤ x ∨ y + w ≤ p.y ∨ p.y + p.w ≤ y ∨
        z + h ≤ p.z ∨ p.z + p.h ≤ z := by
  unfold check_overlap
  rw [List.any_eq_false]
  refine forall_congr' fun p => imp_congr Iff.rfl ?_
  simp only [Bool.or_eq_true, Bool.not_eq_true', Bool.not_eq_true, Bool.or_eq_false_iff,
    decide_eq_true_eq, decide_eq_false_iff_not]
  omega

theorem check_overlap_eq_true {placed_boxes : List PlacedBox} {x y z l w h : Int} :
    check_overlap placed_boxes x y z l w h = true ↔
      ∃ p ∈ placed_boxes,
        (p.x < x + l ∧ x < p.x + p.l) ∧ (p.y < y + w ∧ y < p.y + p.w) ∧
        (p.z < z + h ∧ z < p.z + p.h) := by
  unfold check_overlap
  rw [List.any_eq_true]
  refine exists_congr fun p => and_congr Iff.rfl ?_
  simp only [Bool.or_eq_true, Bool.not_eq_true', Bool.or_eq_false_iff,
    decide_eq_true_eq, decide_eq_false_iff_not]
  omega

theorem packLoop_eq_some {recur : List PlacedBox → Option (List PlacedBox)} {b : Box}
    {container : Container} {placed_boxes : List PlacedBox} {r : List PlacedBox} :
    ∀ {cands : List ((Int × Int × Int) × (Int × Int × Int))},
      packLoop recur b container placed_boxes cands = some r →
      ∃ ax ay az l w h, ((ax, ay, az), (l, w, h)) ∈ cands ∧
        ax + l ≤ container.l ∧ ay + w ≤ container.w ∧ az + h ≤ container.h ∧
        check_overlap placed_boxes ax ay az l w h = false ∧
        recur (placed_boxes ++ [PlacedBox.mk b ax ay az l w h]) = some r
  | [], hp => by simp [packLoop] at hp
  | ((ax, ay, az), (l, w, h)) :: rest, hp => by
    rw [packLoop] at hp
    split at hp
    · obtain ⟨ax', ay', az', l', w', h', hm, hrest⟩ := packLoop_eq_some hp
      exact ⟨ax', ay', az', l', w', h', List.mem_cons_of_mem _ hm, hrest⟩
    · rename_i hbounds
      split at hp
      · obtain ⟨ax', ay', az', l', w', h', hm, hrest⟩ := packLoop_eq_some hp
        exact ⟨ax', ay', az', l', w', h', List.mem_cons_of_mem _ hm, hrest⟩
      · rename_i hov
        split at hp
        · rename_i result hres
          refine ⟨ax, ay, az, l, w, h, List.mem_cons_self _ _, by omega, by omega, by omega,
            Bool.of_not_eq_true hov, ?_⟩
          rw [hres]; exact hp
        · obtain ⟨ax', ay', az', l', w', h', hm, hrest⟩ := packLoop_eq_some hp
          exact ⟨ax', ay', az', l', w', h', List.mem_cons_of_mem _ hm, hrest⟩

theorem mem_candidates {b : Box} {placed_boxes : List PlacedBox}
    {a d : Int × Int × Int} (hc : (a, d) ∈ candidates b placed_boxes) :
    a ∈ anchorPoints placed_boxes ∧ d ∈ rotations b.l b.w b.h := by
  unfold candidates at hc
  simp only [List.mem_flatMap, List.mem_map] at hc
  obtain ⟨a', ha', d', hd', heq⟩ := hc
  obtain ⟨rfl, rfl⟩ : a' = a ∧ d' = d := by
    constructor <;> [exact congrArg Prod.fst heq; exact congrArg Prod.snd heq]
  refine ⟨?_, hd'⟩
  unfold unique_anchors at ha'
  rw [List.mem_insertionSort, List.mem_dedup] at ha'
  exact ha'

theorem mem_rotations_cases {l w h : Int} {d : Int × Int × Int}
    (hd : d ∈ rotations l w h) :
    (d.1 = l ∨ d.1 = w ∨ d.1 = h) ∧ (d.2.1 = l ∨ d.2.1 = w ∨ d.2.1 = h) ∧
    (d.2.2 = l ∨ d.2.2 = w ∨ d.2.2 = h) := by
  unfold rotations at hd
  rw [List.mem_dedup] at hd
  simp only [List.mem_cons, List.mem_singleton, List.not_mem_nil, or_false] at hd
  rcases hd with rfl | rfl | rfl | rfl | rfl | rfl <;> simp

theorem pack_pairwise {container : Container} :
    ∀ (boxes : List Box) (placed_boxes r : List PlacedBox),
      placed_boxes.Pairwise (fun p q => ¬ strictOverlap p q) →
      pack_recursive_helper boxes container placed_boxes = some r →
      r.Pairwise (fun p q => ¬ strictOverlap p q)
  | [], placed_boxes, r, hpw, hp => by
    rw [pack_recursive_helper] at hp
    obtain rfl : placed_boxes = r := Option.some_injective _ hp
    exact hpw
  | b :: remaining, placed_boxes, r, hpw, hp => by
    rw [pack_recursive_helper] at hp
    obtain ⟨ax, ay, az, l, w, h, _, _, _, _, hov, hrec⟩ := packLoop_eq_some hp
    refine pack_pairwise remaining _ r ?_ hrec
    rw [List.pairwise_append]
    refine ⟨hpw, List.pairwise_singleton _ _, ?_⟩
    intro p hmem q hq
    rw [List.mem_singleton] at hq
    subst hq
    have := check_overlap_eq_false.mp hov p hmem
    unfold strictOverlap
    simp only [not_and, not_lt]
    omega

theorem check_fit_eq_some {boxes : List Box} {container : Container} {r : List PlacedBox}
    (h : check_fit boxes container = some r) :
    pack_recursive_helper
      (List.insertionSort (fun a b : Box => b.volume ≤ a.volume) boxes) container []
      = some r := by
  simp only [check_fit] at h
  split at h
  · exact h
  · exact absurd h (by simp)

/-- C1: every placement list returned by `check_fit` is pairwise free of
positive-volume overlap: for all pairs of distinct placed boxes, their axis-aligned
extents do not intersect strictly on all three axes simultaneously.  Moreover
`check_overlap` flags exactly strict intersection on all three axes, so two boxes
that merely touch along a shared face (equal boundary coordinate on some axis) are
not counted as overlapping. -/
theorem check_fit_no_overlap :
    (∀ (boxes : List Box) (container : Container) (r : List PlacedBox),
      check_fit boxes container = some r →
      ∀ i j : Fin r.length, i ≠ j → ¬ strictOverlap (r.get i) (r.get j)) ∧
    (∀ (placed_boxes : List PlacedBox) (x y z l w h : Int),
      check_overlap placed_boxes x y z l w h = true ↔
        ∃ p ∈ placed_boxes,
          (p.x < x + l ∧ x < p.x + p.l) ∧ (p.y < y + w ∧ y < p.y + p.w) ∧
          (p.z < z + h ∧ z < p.z + p.h)) := by
  constructor
  · intro boxes container r hfit i j hij
    have hpw : r.Pairwise (fun p q => ¬ strictOverlap p q) :=
      pack_pairwise _ [] r (List.Pairwise.nil) (check_fit_eq_some hfit)
    rw [List.pairwise_iff_get] at hpw
    rcases lt_or_gt_of_ne (Fin.val_ne_of_ne hij) with hlt | hlt
    · exact hpw i j hlt
    · exact fun hov => hpw j i hlt (strictOverlap_symm hov)
  · intro placed_boxes x y z l w h
    exact check_overlap_eq_true

/-- Scenario boxes used by concrete witnesses: A is 100×100×100 at weight 1,
B is 200×200×200 at weight 2, packed into the 300×300×300 container. -/
def boxA : Box := ⟨"A", 100, 100, 100, 1, 1000000, "#FF7F50"⟩

def boxB : Box := ⟨"B", 200, 200, 200, 2, 8000000, "#FFD700"⟩

def contC : Container := ⟨300, 300, 300, 27000000⟩

def placedB : PlacedBox := ⟨boxB, 0, 0, 0, 200, 200, 200⟩

def placedA : PlacedBox := ⟨boxA, 0, 0, 200, 100, 100, 100⟩

def fitAB : List PlacedBox := [placedB, placedA]

theorem check_fit_no_overlap_witness :
    check_fit [boxA, boxB] contC = some fitAB ∧ ¬ strictOverlap placedB placedA :=
  ⟨rfl, check_fit_no_overlap.1 [boxA, boxB] contC fitAB rfl ⟨0, by decide⟩ ⟨1, by decide⟩
    (by decide)⟩

/-- The invariant carried by the placement recursion: nonnegative origin and
oriented dimensions, and containment within the container on each axis. -/
def withinBox (container : Container) (p : PlacedBox) : Prop :=
  0 ≤ p.x ∧ 0 ≤ p.y ∧ 0 ≤ p.z ∧ 0 ≤ p.l ∧ 0 ≤ p.w ∧ 0 ≤ p.h ∧
  p.x + p.l ≤ container.l ∧ p.y + p.w ≤ container.w ∧ p.z + p.h ≤ container.h

theorem anchor_nonneg {container : Container} {placed_boxes : List PlacedBox}
    (hinv : ∀ p ∈ placed_boxes, withinBox container p)
    {a : Int × Int × Int} (ha : a ∈ anchorPoints placed_boxes) :
    0 ≤ a.1 ∧ 0 ≤ a.2.1 ∧ 0 ≤ a.2.2 := by
  unfold anchorPoints at ha
  simp only [List.mem_cons, List.mem_flatMap, List.mem_singleton] at ha
  rcases ha with rfl | ⟨p, hp, hform⟩
  · exact ⟨le_refl 0, le_refl 0, le_refl 0⟩
  · have hw := hinv p hp
    unfold withinBox at hw
    simp only [List.mem_cons, List.mem_singleton, List.not_mem_nil, or_false] at hform
    rcases hform with rfl | rfl | rfl <;> simp only [] <;> exact ⟨by omega, by omega, by omega⟩

theorem pack_within {container : Container} :
    ∀ (boxes : List Box) (placed_boxes r : List PlacedBox),
      (∀ b ∈ boxes, 0 ≤ b.l ∧ 0 ≤ b.w ∧ 0 ≤ b.h) →
      (∀ p ∈ placed_boxes, withinBox container p) →
      pack_recursive_helper boxes container placed_boxes = some r →
      ∀ p ∈ r, withinBox container p
  | [], placed_boxes, r, _, hinv, hp => by
    rw [pack_recursive_helper] at hp
    obtain rfl : placed_boxes = r := Option.some_injective _ hp
    exact hinv
  | b :: remaining, placed_boxes, r, hboxes, hinv, hp => by
    rw [pack_recursive_helper] at hp
    obtain ⟨ax, ay, az, l, w, h, hmem, hbl, hbw, hbh, _, hrec⟩ := packLoop_eq_some hp
    obtain ⟨hanch, hrot⟩ := mem_candidates hmem
    have hax := anchor_nonneg hinv hanch
    have hdims := mem_rotations_cases hrot
    have hb := hboxes b (List.mem_cons_self _ _)
    refine pack_within remaining _ r (fun b' hb' => hboxes b' (List.mem_cons_of_mem _ hb')) ?_ hrec
    intro p hpmem
    rw [List.mem_append, List.mem_singleton] at hpmem
    rcases hpmem with hpmem | rfl
    · exact hinv p hpmem
    · unfold withinBox
      simp only at hax hdims ⊢
      omega

/-- C2: for every placed box returned by `check_fit` (run on boxes with nonnegative
dimensions, as every parsed box has), each origin coordinate is nonnegative and the
origin plus the oriented dimension stays within the corresponding container
dimension, per axis. -/
theorem check_fit_containment :
    ∀ (boxes : List Box) (container : Container) (r : List PlacedBox),
      (∀ b ∈ boxes, 0 ≤ b.l ∧ 0 ≤ b.w ∧ 0 ≤ b.h) →
      check_fit boxes container = some r →
      ∀ p ∈ r, 0 ≤ p.x ∧ 0 ≤ p.y ∧ 0 ≤ p.z ∧
        p.x + p.l ≤ container.l ∧ p.y + p.w ≤ container.w ∧ p.z + p.h ≤ container.h := by
  intro boxes container r hboxes hfit p hp
  have hsorted : ∀ b ∈ List.insertionSort (fun a b : Box => b.volume ≤ a.volume) boxes,
      0 ≤ b.l ∧ 0 ≤ b.w ∧ 0 ≤ b.h := by
    intro b hb
    exact hboxes b ((List.mem_insertionSort _).mp hb)
  have := pack_within _ [] r hsorted (by simp) (check_fit_eq_some hfit) p hp
  unfold withinBox at this
  omega

theorem check_fit_containment_witness :
    (∀ b ∈ [boxA, boxB], 0 ≤ b.l ∧ 0 ≤ b.w ∧ 0 ≤ b.h) ∧
    check_fit [boxA, boxB] contC = some fitAB ∧
    (0 ≤ placedA.x ∧ 0 ≤ placedA.y ∧ 0 ≤ placedA.z ∧
      placedA.x + placedA.l ≤ contC.l ∧ placedA.y + placedA.w ≤ contC.w ∧
      placedA.z + placedA.h ≤ contC.h) :=
  ⟨by decide, rfl,
    check_fit_containment [boxA, boxB] contC fitAB (by decide) rfl placedA (by decide)⟩

/-- C7: if some box in the input admits no orientation among its distinct dimension
permutations that fits within the container bounds on all three axes independently,
then `check_fit` reports no-fit, regardless of the other boxes. -/
theorem check_fit_fast_reject :
    ∀ (boxes : List Box) (container : Container) (b : Box), b ∈ boxes →
      (∀ d ∈ rotations b.l b.w b.h, ¬ fitsBounds container d) →
      check_fit boxes container = none := by
  intro boxes container b hb hno
  have hcond : ((List.insertionSort (fun a b : Box => b.volume ≤ a.volume) boxes).all
      fun box => (rotations box.l box.w box.h).any fun d => decide (fitsBounds container d))
      = false := by
    rw [List.all_eq_false]
    refine ⟨b, (List.mem_insertionSort _).mpr hb, ?_⟩
    rw [Bool.not_eq_true, List.any_eq_false]
    intro d hd
    simpa using hno d hd
  simp only [check_fit, hcond]
  simp

def boxBig : Box := ⟨"C", 400, 400, 400, 1, 64000000, "#ADFF2F"⟩

theorem check_fit_fast_reject_witness :
    boxBig ∈ [boxA, boxBig] ∧
    (∀ d ∈ rotations boxBig.l boxBig.w boxBig.h, ¬ fitsBounds contC d) ∧
    check_fit [boxA, boxBig] contC = none :=
  ⟨by decide, by decide,
    check_fit_fast_reject [boxA, boxBig] contC boxBig (by decide) (by decide)⟩

theorem pack_boxes_eq {container : Container} :
    ∀ (boxes : List Box) (placed_boxes r : List PlacedBox),
      pack_recursive_helper boxes container placed_boxes = some r →
      r.map PlacedBox.box = placed_boxes.map PlacedBox.box ++ boxes
  | [], placed_boxes, r, hp => by
    rw [pack_recursive_helper] at hp
    obtain rfl : placed_boxes = r := Option.some_injective _ hp
    simp
  | b :: remaining, placed_boxes, r, hp => by
    rw [pack_recursive_helper] at hp
    obtain ⟨ax, ay, az, l, w, h, _, _, _, _, _, hrec⟩ := packLoop_eq_some hp
    have hmap := pack_boxes_eq remaining _ r hrec
    simpa using hmap

/-- C10: when `check_fit` succeeds, the returned placement has exactly one placed
box per input box — its length equals the input length and the underlying box
references are precisely the input multiset; in particular the empty input yields
a successful empty placement, distinct from the `none` no-fit result. -/
theorem check_fit_boxes_preserved :
    (∀ (boxes : List Box) (container : Container) (r : List PlacedBox),
      check_fit boxes container = some r →
      r.length = boxes.length ∧ (r.map PlacedBox.box).Perm boxes) ∧
    (∀ container : Container, check_fit [] container = some []) := by
  constructor
  · intro boxes container r hfit
    have hmap := pack_boxes_eq _ [] r (check_fit_eq_some hfit)
    simp only [List.map_nil, List.nil_append] at hmap
    have hperm : (r.map PlacedBox.box).Perm boxes := by
      rw [hmap]; exact List.perm_insertionSort _ _
    have hlen := hperm.length_eq
    rw [List.length_map] at hlen
    exact ⟨hlen, hperm⟩
  · intro container; rfl

theorem check_fit_boxes_preserved_witness :
    check_fit [boxA, boxB] contC = some fitAB ∧
    fitAB.length = ([boxA, boxB] : List Box).length ∧
    (fitAB.map PlacedBox.box).Perm [boxA, boxB] :=
  ⟨rfl,
    (check_fit_boxes_preserved.1 [boxA, boxB] contC fitAB rfl).1,
    (check_fit_boxes_preserved.1 [boxA, boxB] contC fitAB rfl).2⟩

theorem mem_pyRange {x : Int} :
    ∀ start stop step : Int, 0 < step →
      (x ∈ pyRange start stop step ↔ ∃ k : Nat, x = start + step * k ∧ x < stop) := by
  intro start stop step
  induction start, stop, step using pyRange.induct with
  | case1 start stop step h ih =>
    intro hstep
    rw [pyRange, dif_pos h, List.mem_cons, ih hstep]
    constructor
    · rintro (rfl | ⟨k, hk, hlt⟩)
      · exact ⟨0, by simp, h.2⟩
      · exact ⟨k + 1, by push_cast; linarith, hlt⟩
    · rintro ⟨k, hk, hlt⟩
      cases k with
      | zero => left; simpa using hk
      | succ k => right; exact ⟨k, by push_cast at hk ⊢; linarith, hlt⟩
  | case2 start stop step h =>
    intro hstep
    rw [pyRange, dif_neg h]
    simp only [List.not_mem_nil, false_iff, not_exists, not_and, not_lt]
    intro k hk
    have hk0 : (0 : Int) ≤ step * k := mul_nonneg hstep.le (Int.ofNat_nonneg k)
    have hstop : ¬ start < stop := fun hs => h ⟨hstep, hs⟩
    linarith

theorem pyRange_pairwise :
    ∀ start stop step : Int, 0 < step → (pyRange start stop step).Pairwise (· ≤ ·) := by
  intro start stop step
  induction start, stop, step using pyRange.induct with
  | case1 start stop step h ih =>
    intro hstep
    rw [pyRange, dif_pos h]
    refine List.Pairwise.cons (fun y hy => ?_) (ih hstep)
    obtain ⟨k, rfl, _⟩ := (mem_pyRange _ _ _ hstep).mp hy
    have hk0 : (0 : Int) ≤ step * k := mul_nonneg hstep.le (Int.ofNat_nonneg k)
    linarith
  | case2 start stop step h =>
    intro hstep
    rw [pyRange, dif_neg h]
    exact List.Pairwise.nil

theorem mem_setAdd {α : Type} [DecidableEq α] {s : List α} {x y : α} :
    y ∈ setAdd s x ↔ y ∈ s ∨ y = x := by
  unfold setAdd
  split
  · rename_i hx
    constructor
    · exact Or.inl
    · rintro (hy | rfl)
      exacts [hy, hx]
  · simp [List.mem_append]

theorem nodup_setAdd {α : Type} [DecidableEq α] {s : List α} {x : α} (h : s.Nodup) :
    (setAdd s x).Nodup := by
  unfold setAdd
  split
  · exact h
  · rename_i hx
    simp [List.nodup_append, h, hx]

theorem mem_foldl_of_mem_step {α γ : Type} {g : List γ → α → List γ} {P : α → γ → Prop}
    (hg : ∀ acc a x, x ∈ g acc a ↔ x ∈ acc ∨ P a x) :
    ∀ (l : List α) (acc : List γ) (x : γ),
      x ∈ l.foldl g acc ↔ x ∈ acc ∨ ∃ a ∈ l, P a x := by
  intro l
  induction l with
  | nil => intro acc x; simp
  | cons a l ih =>
    intro acc x
    rw [List.foldl_cons, ih, hg]
    constructor
    · rintro ((hx | hp) | ⟨a2, ha2, hp⟩)
      · exact Or.inl hx
      · exact Or.inr ⟨a, List.mem_cons_self _ _, hp⟩
      · exact Or.inr ⟨a2, List.mem_cons_of_mem _ ha2, hp⟩
    · rintro (hx | ⟨a2, ha2, hp⟩)
      · exact Or.inl (Or.inl hx)
      · rcases List.mem_cons.mp ha2 with rfl | ha2
        · exact Or.inl (Or.inr hp)
        · exact Or.inr ⟨a2, ha2, hp⟩

theorem nodup_foldl {α γ : Type} {g : List γ → α → List γ}
    (hg : ∀ acc a, acc.Nodup → (g acc a).Nodup) :
    ∀ (l : List α) (acc : List γ), acc.Nodup → (l.foldl g acc).Nodup := by
  intro l
  induction l with
  | nil => intro acc h; simpa using h
  | cons a l ih =>
    intro acc h
    rw [List.foldl_cons]
    exact ih _ (hg _ _ h)

theorem sorted3_spec {l w h a b c : Int} (he : sorted3 l w h = (a, b, c)) :
    a ≤ b ∧ b ≤ c ∧ a + b + c = l + w + h ∧
    (a = l ∨ a = w ∨ a = h) ∧ (b = l ∨ b = w ∨ b = h) ∧ (c = l ∨ c = w ∨ c = h) := by
  unfold sorted3 at he
  split_ifs at he <;>
    (simp only [Prod.mk.injEq] at he
     obtain ⟨rfl, rfl, rfl⟩ := he
     refine ⟨by omega, by omega, by omega, by tauto, by tauto, by tauto⟩)

theorem sorted3_eq_self {l w h : Int} (h1 : l ≤ w) (h2 : w ≤ h) :
    sorted3 l w h = (l, w, h) := by
  unfold sorted3
  split_ifs
  rfl

theorem foldl_no_add {l w total_sum : Int} :
    ∀ (hs : List Int) (acc : List (Int × Int × Int)),
      (∀ h ∈ hs, ¬ l + w + h ≤ total_sum) →
      hs.foldl
        (fun acc h => if l + w + h ≤ total_sum then setAdd acc (sorted3 l w h) else acc) acc
        = acc := by
  intro hs
  induction hs with
  | nil => intro acc _; rfl
  | cons h hs ih =>
    intro acc hno
    simp only [List.foldl_cons]
    rw [if_neg (hno h (List.mem_cons_self _ _))]
    exact ih _ fun h2 hh2 => hno h2 (List.mem_cons_of_mem _ hh2)

theorem hLoop_eq_foldl {l w total_sum : Int} :
    ∀ (hs : List Int) (acc : List (Int × Int × Int)), hs.Pairwise (· ≤ ·) →
      hLoop l w total_sum acc hs =
        hs.foldl
          (fun acc h => if l + w + h ≤ total_sum then setAdd acc (sorted3 l w h) else acc)
          acc := by
  intro hs
  induction hs with
  | nil => intro acc _; rfl
  | cons h hs ih =>
    intro acc hpw
    obtain ⟨hhead, htail⟩ := List.pairwise_cons.mp hpw
    simp only [List.foldl_cons, hLoop]
    by_cases hc : l + w + h ≤ total_sum
    · rw [if_pos hc, if_pos hc]
      exact ih _ htail
    · rw [if_neg hc, if_neg hc]
      exact (foldl_no_add hs acc fun h2 hh2 => by have := hhead h2 hh2; omega).symm

theorem generate_eq_naive (total_sum max_dim min_dim increment : Int) :
    generate_containers total_sum max_dim min_dim increment =
      generate_containers_naive total_sum max_dim min_dim increment := by
  simp only [generate_containers, generate_containers_naive]
  by_cases hinc : increment ≤ 0
  · rw [if_pos hinc, if_pos hinc]
  · rw [if_neg hinc, if_neg hinc]
    have hpw := pyRange_pairwise min_dim (max_dim + 1) increment (by omega)
    congr 1
    refine List.foldl_ext _ _ _ fun acc l hl => ?_
    refine List.foldl_ext _ _ _ fun acc2 w hw => ?_
    exact hLoop_eq_foldl _ acc2 hpw

/-- A value belongs to the candidate per-axis progression: it is of the form
`min_dim + increment * k` for some `k ≥ 0` and is capped at `max_dim`. -/
def inProgression (min_dim increment max_dim x : Int) : Prop :=
  (∃ k : Nat, x = min_dim + increment * k) ∧ x ≤ max_dim

theorem mem_pyRange_steps {min_dim max_dim increment x : Int} (hstep : 0 < increment) :
    x ∈ pyRange min_dim (max_dim + 1) increment ↔
      inProgression min_dim increment max_dim x := by
  rw [mem_pyRange _ _ _ hstep]
  unfold inProgression
  constructor
  · rintro ⟨k, rfl, hlt⟩
    exact ⟨⟨k, rfl⟩, by omega⟩
  · rintro ⟨⟨k, rfl⟩, hle⟩
    exact ⟨k, rfl, by omega⟩

theorem mem_generate_naive {total_sum max_dim min_dim increment : Int}
    (hinc : 0 < increment) {c : Container} :
    c ∈ generate_containers_naive total_sum max_dim min_dim increment ↔
      ∃ lv wv hv : Int,
        lv ∈ pyRange min_dim (max_dim + 1) increment ∧
        wv ∈ pyRange min_dim (max_dim + 1) increment ∧
        hv ∈ pyRange min_dim (max_dim + 1) increment ∧
        lv + wv + hv ≤ total_sum ∧
        c = Container.mk (sorted3 lv wv hv).1 (sorted3 lv wv hv).2.1 (sorted3 lv wv hv).2.2
          ((sorted3 lv wv hv).1 * (sorted3 lv wv hv).2.1 * (sorted3 lv wv hv).2.2) := by
  simp only [generate_containers_naive]
  rw [if_neg (by omega)]
  have hinner : ∀ (lv wv : Int) (acc : List (Int × Int × Int)) (x : Int × Int × Int),
      x ∈ (pyRange min_dim (max_dim + 1) increment).foldl
        (fun acc h => if lv + wv + h ≤ total_sum then setAdd acc (sorted3 lv wv h) else acc)
        acc ↔
      x ∈ acc ∨ ∃ hv ∈ pyRange min_dim (max_dim + 1) increment,
        lv + wv + hv ≤ total_sum ∧ x = sorted3 lv wv hv := by
    intro lv wv
    refine mem_foldl_of_mem_step (fun acc a x => ?_) _
    by_cases hc : lv + wv + a ≤ total_sum
    · rw [if_pos hc, mem_setAdd]
      tauto
    · rw [if_neg hc]
      tauto
  have hmid : ∀ (lv : Int) (acc : List (Int × Int × Int)) (x : Int × Int × Int),
      x ∈ (pyRange min_dim (max_dim + 1) increment).foldl
        (fun acc w => (pyRange min_dim (max_dim + 1) increment).foldl
          (fun acc h => if lv + w + h ≤ total_sum then setAdd acc (sorted3 lv w h) else acc)
          acc) acc ↔
      x ∈ acc ∨ ∃ wv ∈ pyRange min_dim (max_dim + 1) increment,
        ∃ hv ∈ pyRange min_dim (max_dim + 1) increment,
          lv + wv + hv ≤ total_sum ∧ x = sorted3 lv wv hv := by
    intro lv
    exact mem_foldl_of_mem_step (fun acc a x => hinner lv a acc x) _
  have houter : ∀ (x : Int × Int × Int),
      x ∈ (pyRange min_dim (max_dim + 1) increment).foldl
        (fun acc l => (pyRange min_dim (max_dim + 1) increment).foldl
          (fun acc w => (pyRange min_dim (max_dim + 1) increment).foldl
            (fun acc h => if l + w + h ≤ total_sum then setAdd acc (sorted3 l w h) else acc)
            acc) acc) [] ↔
      ∃ lv ∈ pyRange min_dim (max_dim + 1) increment,
        ∃ wv ∈ pyRange min_dim (max_dim + 1) increment,
          ∃ hv ∈ pyRange min_dim (max_dim + 1) increment,
            lv + wv + hv ≤ total_sum ∧ x = sorted3 lv wv hv := by
    intro x
    rw [mem_foldl_of_mem_step (fun acc a x => hmid a acc x) _ _ x]
    simp
  rw [List.mem_map]
  constructor
  · rintro ⟨d, hd, rfl⟩
    obtain ⟨lv, hlv, wv, hwv, hv, hhv, hsum, rfl⟩ := (houter d).mp hd
    exact ⟨lv, wv, hv, hlv, hwv, hhv, hsum, rfl⟩
  · rintro ⟨lv, wv, hv, hlv, hwv, hhv, hsum, rfl⟩
    exact ⟨sorted3 lv wv hv, (houter _).mpr ⟨lv, hlv, wv, hwv, hv, hhv, hsum, rfl⟩, rfl⟩

theorem nodup_generate {total_sum max_dim min_dim increment : Int} :
    (generate_containers total_sum max_dim min_dim increment).Nodup := by
  rw [generate_eq_naive]
  simp only [generate_containers_naive]
  split
  · exact List.nodup_nil
  · refine List.Nodup.map ?_ ?_
    · intro d1 d2 heq
      obtain ⟨a1, b1, c1⟩ := d1
      obtain ⟨a2, b2, c2⟩ := d2
      simp only [Container.mk.injEq, Prod.mk.injEq] at heq ⊢
      exact ⟨heq.1, heq.2.1, heq.2.2.1⟩
    · refine nodup_foldl (fun acc a hacc => ?_) _ _ List.nodup_nil
      refine nodup_foldl (fun acc2 a2 hacc2 => ?_) _ _ hacc
      refine nodup_foldl (fun acc3 a3 hacc3 => ?_) _ _ hacc2
      split
      · exact nodup_setAdd hacc3
      · exact hacc3

/-- C4: for `increment > 0`, `generate_containers` returns exactly the duplicate-free
collection of canonically sorted triples `l ≤ w ≤ h` whose components lie on the
arithmetic progression starting at `min_dim` with the given increment, capped at
`max_dim`, with `l + w + h ≤ total_sum`, and whose volume field is `l * w * h`. -/
theorem generate_containers_characterization :
    ∀ total_sum max_dim min_dim increment : Int, 0 < increment →
      (generate_containers total_sum max_dim min_dim increment).Nodup ∧
      ∀ c : Container,
        c ∈ generate_containers total_sum max_dim min_dim increment ↔
          c.l ≤ c.w ∧ c.w ≤ c.h ∧
          inProgression min_dim increment max_dim c.l ∧
          inProgression min_dim increment max_dim c.w ∧
          inProgression min_dim increment max_dim c.h ∧
          c.l + c.w + c.h ≤ total_sum ∧ c.volume = c.l * c.w * c.h := by
  intro ts md mind inc hinc
  refine ⟨nodup_generate, fun c => ?_⟩
  rw [generate_eq_naive, mem_generate_naive hinc]
  constructor
  · rintro ⟨lv, wv, hv, hlv, hwv, hhv, hsum, rfl⟩
    obtain ⟨a, b, c3, hrep⟩ : ∃ a b c3, sorted3 lv wv hv = (a, b, c3) := ⟨_, _, _, rfl⟩
    obtain ⟨hab, hbc, hsum3, hca, hcb, hcc⟩ := sorted3_spec hrep
    rw [mem_pyRange_steps hinc] at hlv hwv hhv
    rw [hrep]
    dsimp only
    refine ⟨hab, hbc, ?_, ?_, ?_, by omega, rfl⟩
    · rcases hca with rfl | rfl | rfl <;> assumption
    · rcases hcb with rfl | rfl | rfl <;> assumption
    · rcases hcc with rfl | rfl | rfl <;> assumption
  · rintro ⟨h1, h2, hplv, hpwv, hphv, hsum, hvol⟩
    obtain ⟨cl, cw, ch, cv⟩ := c
    dsimp only at h1 h2 hplv hpwv hphv hsum hvol ⊢
    refine ⟨cl, cw, ch, (mem_pyRange_steps hinc).mpr hplv, (mem_pyRange_steps hinc).mpr hpwv,
      (mem_pyRange_steps hinc).mpr hphv, hsum, ?_⟩
    rw [sorted3_eq_self h1 h2]
    dsimp only
    rw [hvol]

theorem generate_containers_characterization_witness :
    0 < (50 : Int) ∧
    ((generate_containers 900 600 50 50).Nodup ∧
      ∀ c : Container,
        c ∈ generate_containers 900 600 50 50 ↔
          c.l ≤ c.w ∧ c.w ≤ c.h ∧
          inProgression 50 50 600 c.l ∧ inProgression 50 50 600 c.w ∧
          inProgression 50 50 600 c.h ∧
          c.l + c.w + c.h ≤ 900 ∧ c.volume = c.l * c.w * c.h) :=
  ⟨by decide, generate_containers_characterization 900 600 50 50 (by decide)⟩

/-- C5: a non-positive increment makes `generate_containers` return the empty
collection for any other parameters, and whenever the generated container collection
is empty the combination search returns zero solutions without enumerating subsets. -/
theorem empty_containers_abort :
    (∀ total_sum max_dim min_dim increment : Int, increment ≤ 0 →
      generate_containers total_sum max_dim min_dim increment = []) ∧
    (∀ (total_sum max_dim min_dim increment : Int) (max_weight : Rat)
        (input_boxes : List Box),
      generate_containers total_sum max_dim min_dim increment = [] →
      run_packing total_sum max_dim min_dim increment max_weight input_boxes = []) := by
  constructor
  · intro ts md mind inc hinc
    simp only [generate_containers]
    rw [if_pos hinc]
  · intro ts md mind inc mw boxes hempty
    simp [run_packing, hempty]

theorem empty_containers_abort_witness :
    ((-1 : Int) ≤ 0 ∧ generate_containers 900 600 50 (-1) = []) ∧
    (generate_containers 900 600 50 (-1) = [] ∧
      run_packing 900 600 50 (-1) 10000 [boxA, boxB] = []) :=
  ⟨⟨by decide, empty_containers_abort.1 900 600 50 (-1) (by decide)⟩,
    ⟨empty_containers_abort.1 900 600 50 (-1) (by decide),
      empty_containers_abort.2 900 600 50 (-1) 10000 [boxA, boxB]
        (empty_containers_abort.1 900 600 50 (-1) (by decide))⟩⟩

/-- C6: the early exit of the innermost loop of `generate_containers` (breaking out
of the h-loop for a given (l, w) pair once `l + w + h` exceeds `total_sum`) is a pure
optimisation: for every input with `increment > 0` the function returns exactly the
same containers as the naive triple loop that tests every combination. -/
theorem generate_break_equiv :
    ∀ total_sum max_dim min_dim increment : Int, 0 < increment →
      generate_containers total_sum max_dim min_dim increment =
        generate_containers_naive total_sum max_dim min_dim increment := by
  intro ts md mind inc _
  exact generate_eq_naive ts md mind inc

theorem generate_break_equiv_witness :
    0 < (50 : Int) ∧
    generate_containers 900 600 50 50 = generate_containers_naive 900 600 50 50 :=
  ⟨by decide, generate_break_equiv 900 600 50 50 (by decide)⟩

theorem combinations_length {α : Type} :
    ∀ (l : List α) (k : Nat) (c : List α), c ∈ combinations k l → c.length = k := by
  intro l
  induction l with
  | nil =>
    intro k c hc
    cases k with
    | zero =>
      simp only [combinations, List.mem_singleton] at hc
      subst hc; rfl
    | succ k => simp [combinations] at hc
  | cons x xs ih =>
    intro k c hc
    cases k with
    | zero =>
      simp only [combinations, List.mem_singleton] at hc
      subst hc; rfl
    | succ k =>
      simp only [combinations, List.mem_append, List.mem_map] at hc
      rcases hc with ⟨c2, hc2, rfl⟩ | hc
      · simp [ih k c2 hc2]
      · exact ih (k + 1) c hc

theorem mem_processCombo {max_weight : Rat} {containers : List Container}
    {combo : List Box} {sol : Solution} (h : sol ∈ processCombo max_weight containers combo) :
    ¬ max_weight < (((combo.map Box.weight).sum : Int) : Rat) ∧
    ∃ c placed,
      tryContainers combo ((combo.map Box.volume).sum) containers = some (c, placed) ∧
      sol = Solution.mk combo c placed := by
  simp only [processCombo] at h
  split at h
  · simp at h
  · rename_i hw
    split at h
    · rename_i c placed hsome
      rw [List.mem_singleton] at h
      subst h
      exact ⟨hw, c, placed, hsome, rfl⟩
    · simp at h

theorem mem_run_packing {total_sum max_dim min_dim increment : Int} {max_weight : Rat}
    {input_boxes : List Box} {sol : Solution} :
    sol ∈ run_packing total_sum max_dim min_dim increment max_weight input_boxes ↔
      generate_containers total_sum max_dim min_dim increment ≠ [] ∧
      2 ≤ input_boxes.length ∧
      ∃ k, 2 ≤ k ∧ k ≤ input_boxes.length ∧
        ∃ combo ∈ combinations k input_boxes,
          sol ∈ processCombo max_weight
            (generate_containers total_sum max_dim min_dim increment) combo := by
  simp only [run_packing]
  split
  · rename_i hempty
    simp [hempty]
  · rename_i hne
    split
    · rename_i hlen
      simp only [List.not_mem_nil, false_iff, not_and]
      intro _ hlen2
      omega
    · rename_i hlen
      rw [List.mem_flatMap]
      constructor
      · rintro ⟨k, hk, hsol⟩
        rw [List.mem_map] at hk
        obtain ⟨i, hi, rfl⟩ := hk
        rw [List.mem_range] at hi
        rw [List.mem_flatMap] at hsol
        obtain ⟨combo, hcombo, hsol⟩ := hsol
        exact ⟨hne, by omega, 2 + i, by omega, by omega, combo, hcombo, hsol⟩
      · rintro ⟨-, hlen2, k, hk2, hkle, combo, hcombo, hsol⟩
        refine ⟨k, ?_, ?_⟩
        · rw [List.mem_map]
          exact ⟨k - 2, by rw [List.mem_range]; omega, by omega⟩
        · rw [List.mem_flatMap]
          exact ⟨combo, hcombo, hsol⟩

/-- C3: every solution reported by the search has subset total weight at most
`max_weight` (exact equality is allowed); a subset whose total weight strictly
exceeds `max_weight` is rejected before any geometric fitting is attempted, for any
container list. -/
theorem weight_invariant :
    (∀ (total_sum max_dim min_dim increment : Int) (max_weight : Rat)
        (input_boxes : List Box) (sol : Solution),
      sol ∈ run_packing total_sum max_dim min_dim increment max_weight input_boxes →
      (((sol.combination.map Box.weight).sum : Int) : Rat) ≤ max_weight) ∧
    (∀ (max_weight : Rat) (containers : List Container) (combo : List Box),
      max_weight < (((combo.map Box.weight).sum : Int) : Rat) →
      processCombo max_weight containers combo = []) := by
  constructor
  · intro ts md mind inc mw boxes sol hsol
    obtain ⟨-, -, k, -, -, combo, -, hmem⟩ := mem_run_packing.mp hsol
    obtain ⟨hw, c, placed, -, rfl⟩ := mem_processCombo hmem
    simpa using not_lt.mp hw
  · intro mw cs combo hw
    simp only [processCombo]
    rw [if_pos hw]

/-- Small concrete search used by the combination-search witnesses: two unit boxes
in the single generated 3×3×3 container. -/
def boxS1 : Box := ⟨"S1", 1, 1, 1, 1, 1, "#00FFFF"⟩

def boxS2 : Box := ⟨"S2", 1, 1, 1, 1, 1, "#1E90FF"⟩

def contS : Container := ⟨3, 3, 3, 27⟩

def solS : Solution :=
  ⟨[boxS1, boxS2], contS, [⟨boxS1, 0, 0, 0, 1, 1, 1⟩, ⟨boxS2, 0, 0, 1, 1, 1, 1⟩]⟩

theorem run_packing_small : run_packing 9 3 3 3 10 [boxS1, boxS2] = [solS] := by
  have hc : generate_containers 9 3 3 3 = [contS] := by
    simp [generate_containers, pyRange, hLoop, setAdd, sorted3, contS]
  simp only [run_packing, hc]
  decide

theorem weight_invariant_witness :
    solS ∈ run_packing 9 3 3 3 10 [boxS1, boxS2] ∧
    (((solS.combination.map Box.weight).sum : Int) : Rat) ≤ 10 :=
  ⟨by rw [run_packing_small]; exact List.mem_singleton.mpr rfl,
    weight_invariant.1 9 3 3 3 10 [boxS1, boxS2] solS
      (by rw [run_packing_small]; exact List.mem_singleton.mpr rfl)⟩

/-- C8: the combination search only attempts subsets of size at least 2, so every
reported solution contains at least two boxes; with fewer than two valid boxes the
search aborts with zero solutions. -/
theorem min_subset_size :
    (∀ (total_sum max_dim min_dim increment : Int) (max_weight : Rat)
        (input_boxes : List Box) (sol : Solution),
      sol ∈ run_packing total_sum max_dim min_dim increment max_weight input_boxes →
      2 ≤ sol.combination.length) ∧
    (∀ (total_sum max_dim min_dim increment : Int) (max_weight : Rat)
        (input_boxes : List Box),
      input_boxes.length < 2 →
      run_packing total_sum max_dim min_dim increment max_weight input_boxes = []) := by
  constructor
  · intro ts md mind inc mw boxes sol hsol
    obtain ⟨-, -, k, hk2, -, combo, hcombo, hmem⟩ := mem_run_packing.mp hsol
    obtain ⟨-, c, placed, -, rfl⟩ := mem_processCombo hmem
    have := combinations_length boxes k combo hcombo
    dsimp only
    omega
  · intro ts md mind inc mw boxes hlen
    simp only [run_packing]
    split <;> rfl

theorem min_subset_size_witness :
    (solS ∈ run_packing 9 3 3 3 10 [boxS1, boxS2] ∧ 2 ≤ solS.combination.length) ∧
    (([boxS1] : List Box).length < 2 ∧ run_packing 9 3 3 3 10 [boxS1] = []) :=
  ⟨⟨by rw [run_packing_small]; exact List.mem_singleton.mpr rfl,
     min_subset_size.1 9 3 3 3 10 [boxS1, boxS2] solS
       (by rw [run_packing_small]; exact List.mem_singleton.mpr rfl)⟩,
   ⟨by decide, min_subset_size.2 9 3 3 3 10 [boxS1] (by decide)⟩⟩

theorem tryContainers_eq_some {combo : List Box} {total_volume : Int} :
    ∀ {containers : List Container} {c : Container} {placed : List PlacedBox},
      tryContainers combo total_volume containers = some (c, placed) →
      total_volume ≤ c.volume ∧ check_fit combo c = some placed ∧
      ∃ pre post, containers = pre ++ c :: post ∧
        ∀ c2 ∈ pre, c2.volume < total_volume ∨ check_fit combo c2 = none
  | [], c, placed, h => by simp [tryContainers] at h
  | c0 :: cs, c, placed, h => by
    rw [tryContainers] at h
    split at h
    · rename_i hvol
      obtain ⟨h1, h2, pre, post, rfl, hpre⟩ := tryContainers_eq_some h
      refine ⟨h1, h2, c0 :: pre, post, rfl, fun c2 hc2 => ?_⟩
      rcases List.mem_cons.mp hc2 with rfl | hc2
      · exact Or.inl hvol
      · exact hpre c2 hc2
    · rename_i hvol
      split at h
      · rename_i placed0 hfit
        obtain heq : (c0, placed0) = (c, placed) := Option.some_injective _ h
        obtain ⟨rfl, rfl⟩ : c0 = c ∧ placed0 = placed :=
          ⟨congrArg Prod.fst heq, congrArg Prod.snd heq⟩
        exact ⟨by omega, hfit, [], cs, rfl, by simp⟩
      · rename_i hfit
        obtain ⟨h1, h2, pre, post, rfl, hpre⟩ := tryContainers_eq_some h
        refine ⟨h1, h2, c0 :: pre, post, rfl, fun c2 hc2 => ?_⟩
        rcases List.mem_cons.mp hc2 with rfl | hc2
        · exact Or.inr hfit
        · exact hpre c2 hc2

/-- C9: the search invokes the placement engine only on containers whose volume is
at least the subset's total volume and accepts the first container in list order
that yields a placement (every earlier container was either volume-skipped or failed
to fit), appending exactly one solution per subset; a subset with no fitting
container contributes no solution, and solutions are exactly the per-subset
successes, so one subset's failure does not stop evaluation of later subsets. -/
theorem first_fit_containers :
    (∀ (combo : List Box) (total_volume : Int) (containers : List Container)
        (c : Container) (placed : List PlacedBox),
      tryContainers combo total_volume containers = some (c, placed) →
      total_volume ≤ c.volume ∧ check_fit combo c = some placed ∧
      ∃ pre post, containers = pre ++ c :: post ∧
        ∀ c2 ∈ pre, c2.volume < total_volume ∨ check_fit combo c2 = none) ∧
    (∀ (max_weight : Rat) (containers : List Container) (combo : List Box),
      (processCombo max_weight containers combo).length ≤ 1) ∧
    (∀ (max_weight : Rat) (containers : List Container) (combo : List Box),
      tryContainers combo ((combo.map Box.volume).sum) containers = none →
      processCombo max_weight containers combo = []) ∧
    (∀ (total_sum max_dim min_dim increment : Int) (max_weight : Rat)
        (input_boxes : List Box) (sol : Solution),
      sol ∈ run_packing total_sum max_dim min_dim increment max_weight input_boxes ↔
        generate_containers total_sum max_dim min_dim increment ≠ [] ∧
        2 ≤ input_boxes.length ∧
        ∃ k, 2 ≤ k ∧ k ≤ input_boxes.length ∧
          ∃ combo ∈ combinations k input_boxes,
            sol ∈ processCombo max_weight
              (generate_containers total_sum max_dim min_dim increment) combo) := by
  refine ⟨fun combo tv cs c placed h => tryContainers_eq_some h, ?_, ?_, ?_⟩
  · intro mw cs combo
    simp only [processCombo]
    split
    · simp
    · split <;> simp
  · intro mw cs combo hnone
    simp only [processCombo]
    split
    · rfl
    · rw [hnone]
  · intro ts md mind inc mw boxes sol
    exact mem_run_packing

theorem first_fit_containers_witness :
    tryContainers [boxA, boxB] 9000000 [contC] = some (contC, fitAB) ∧
    (9000000 ≤ contC.volume ∧ check_fit [boxA, boxB] contC = some fitAB ∧
      ∃ pre post, [contC] = pre ++ contC :: post ∧
        ∀ c2 ∈ pre, c2.volume < 9000000 ∨ check_fit [boxA, boxB] c2 = none) :=
  ⟨rfl, first_fit_containers.1 [boxA, boxB] 9000000 [contC] contC fitAB rfl⟩

end BoxPacker
